import Mathlib

/-!
Verification development for the Binance open-interest tracker
(`streamlit_app.py`).  The numeric domain of the program (Python floats and
database decimals) is embedded as `ℚ`: every claim under study is about the
exact arithmetic of the formulas, not about rounding.  Time-series rows are
embedded as lists of `SamplePoint`, in ascending time order, matching the
`ORDER BY time ASC` shape in which the program receives them.
-/

/-- One row of a per-symbol series: `(time, 标记价格 (USDC), 未平仓量)`,
i.e. `(time, price, open interest)`. -/
structure SamplePoint where
  time : ℤ
  price : ℚ
  oi : ℚ
deriving DecidableEq, Repr

/-- Default row used only to give `List.getLastD` a fallback; every use site
guards for a non-empty list first (the Python code indexes `iloc[-1]` only on
series it already knows have at least 2 rows). -/
def dfltPoint : SamplePoint := ⟨0, 0, 0⟩

/-- A raw reference field from the `binance_circulating_supply` table, as seen
by the Python code before conversion: it can be missing (`None` / absent key),
present but not convertible by `float(...)` (raises `ValueError`/`TypeError`),
or a usable number. -/
inductive RawField where
  | absent : RawField
  | unparseable : RawField
  | num : ℚ → RawField
deriving DecidableEq, Repr

/-- One record of the supply table: `(circulating_supply, market_cap)`,
keyed by symbol. -/
structure SupplyRecord where
  circulating_supply : RawField
  market_cap : RawField
deriving DecidableEq, Repr

/-- The entry appended to `ranking_data` for each eligible symbol. -/
structure RankingEntry where
  symbol : String
  intensity : ℚ
  oi_growth_usd : ℚ
  market_cap : ℚ
deriving DecidableEq, Repr

/-- Embeds the guarded conversion in `main_app`:
`supply = 0; if raw is not None: supply = float(raw)` with
`except (ValueError, TypeError): supply = 0`.  A missing or unparseable
field yields `0`. -/
def parseFloatOrZero : RawField → ℚ
  | RawField.absent => 0
  | RawField.unparseable => 0
  | RawField.num q => q

/-- `supply` as computed in `main_app` from `token_info = supply_data.get(sym)`:
`0` when there is no record, otherwise the guarded float conversion of
`circulating_supply`. -/
def safeSupply : Option SupplyRecord → ℚ
  | none => 0
  | some r => parseFloatOrZero r.circulating_supply

/-- `db_market_cap` as computed in `main_app`: `0` when there is no record,
otherwise the guarded float conversion of the static `market_cap` field. -/
def safeDbMarketCap : Option SupplyRecord → ℚ
  | none => 0
  | some r => parseFloatOrZero r.market_cap

/-- `df['未平仓量'].min()`: the minimum open interest over the whole series. -/
def minOi (df : List SamplePoint) : ℚ :=
  match df with
  | [] => 0
  | p :: ps => ps.foldl (fun m q => min m q.oi) p.oi

/-- The per-symbol body of the ranking loop in `main_app` (lines 231-287):
skip the symbol when the series has fewer than 2 rows, otherwise compute
`current_price`, `min_oi`, `current_oi`, `oi_growth_tokens`, `oi_growth_usd`,
then pick `market_cap` and `intensity` by the priority chain
(dynamic supply*price, else static market cap, else OI-proxy, else zero)
and emit one `RankingEntry`. -/
def computeEntry (sym : String) (df : List SamplePoint) (ti : Option SupplyRecord) :
    Option RankingEntry :=
  if df.length < 2 then none
  else
    let current_price := (df.getLastD dfltPoint).price
    let min_oi := minOi df
    let current_oi := (df.getLastD dfltPoint).oi
    let oi_growth_tokens := current_oi - min_oi
    let oi_growth_usd := oi_growth_tokens * current_price
    let supply := safeSupply ti
    let db_market_cap := safeDbMarketCap ti
    if 0 < supply then
      let market_cap := supply * current_price
      some ⟨sym, oi_growth_usd / market_cap, oi_growth_usd, market_cap⟩
    else if 0 < db_market_cap then
      some ⟨sym, oi_growth_usd / db_market_cap, oi_growth_usd, db_market_cap⟩
    else if 0 < min_oi then
      some ⟨sym, oi_growth_tokens / min_oi * (1 / 10), oi_growth_usd, 0⟩
    else
      some ⟨sym, 0, oi_growth_usd, 0⟩

/-- The whole ranking loop: `bulk_data` is embedded as an association list
(symbol, series) in the map's iteration order, `supply_data` as a lookup
function; one `RankingEntry` is collected per eligible symbol. -/
def computeRankings (bulk : List (String × List SamplePoint))
    (supply_data : String → Option SupplyRecord) : List RankingEntry :=
  bulk.filterMap (fun p => computeEntry p.1 p.2 (supply_data p.1))

/-- `l.iloc[::step]` on positions, written with a countdown counter so that it
is structurally recursive: an element is kept when the counter is `0` (the
counter then restarts at `step - 1`), otherwise skipped.  Starting the counter
at `0` keeps exactly positions `0, step, 2*step, ...` for `step ≥ 1`. -/
def everyNthAux (step : ℕ) : List SamplePoint → ℕ → List SamplePoint
  | [], _ => []
  | a :: l, 0 => a :: everyNthAux step l (step - 1)
  | _ :: l, k + 1 => everyNthAux step l k

/-- `df.iloc[::step]`: keep positions `0, step, 2*step, ...`. -/
def everyNth (l : List SamplePoint) (step : ℕ) : List SamplePoint :=
  everyNthAux step l 0

/-- `downsample_data(df, target_points)` (lines 108-114): return the series
unchanged when `len(df) <= target_points`; otherwise take every
`len // target_points`-th row and, when the last row's (unique) index label
did not survive the stride — i.e. when `(len - 1) % step ≠ 0` — append the
last row. -/
def downsample_data (df : List SamplePoint) (target_points : ℕ) : List SamplePoint :=
  if df.length ≤ target_points then df
  else
    let step := df.length / target_points
    let df_sampled := everyNth df step
    if (df.length - 1) % step = 0 then df_sampled
    else df_sampled ++ [df.getLastD dfltPoint]

/-- `DATA_LIMIT` (line 18): the per-symbol recency window of the bulk query. -/
def DATA_LIMIT : ℕ := 4000

/-- The per-symbol content of `fetch_bulk_data_one_shot`'s SQL (lines 77-88):
`ROW_NUMBER() OVER (PARTITION BY symbol ORDER BY time DESC) AS rn`,
`WHERE rn <= limit`, re-emitted `ORDER BY time ASC`.  For one symbol whose
stored rows are in ascending time order (distinct timestamps), ranking by
recency and keeping `rn ≤ limit` keeps the last `limit` rows, returned in
ascending time order. -/
def fetch_bulk_window (rows : List SamplePoint) (limit : ℕ) : List SamplePoint :=
  ((rows.reverse).take limit).reverse

/-- Modelled from the spec: the stride decimation §4.2 attributes to
`fetchSeries` — within the most-recent window keep recency rank 1 and every
`stride`-th rank thereafter, then re-order ascending by time.  Stated here
only to compare against `fetch_bulk_window`, the behaviour actually present
in `fetch_bulk_data_one_shot`. -/
def specDecimatedFetch (rows : List SamplePoint) (limit stride : ℕ) : List SamplePoint :=
  (everyNth ((rows.reverse).take limit) stride).reverse

/-! ### Helper lemmas about `minOi` and last elements -/

lemma foldl_min_le_init (l : List SamplePoint) (a : ℚ) :
    l.foldl (fun m q => min m q.oi) a ≤ a := by
  induction l generalizing a with
  | nil => exact le_refl a
  | cons p ps ih => exact le_trans (ih (min a p.oi)) (min_le_left a p.oi)

lemma foldl_min_le_mem (l : List SamplePoint) (p : SamplePoint) :
    ∀ a : ℚ, p ∈ l → l.foldl (fun m q => min m q.oi) a ≤ p.oi := by
  induction l with
  | nil => intro a hp; cases hp
  | cons q qs ih =>
    intro a hp
    rcases List.mem_cons.mp hp with h | h
    · subst h
      exact le_trans (foldl_min_le_init qs (min a p.oi)) (min_le_right a p.oi)
    · exact ih (min a q.oi) h

lemma minOi_le_of_mem (df : List SamplePoint) (p : SamplePoint) (hp : p ∈ df) :
    minOi df ≤ p.oi := by
  cases df with
  | nil => cases hp
  | cons q qs =>
    rcases List.mem_cons.mp hp with h | h
    · subst h
      exact foldl_min_le_init qs p.oi
    · exact foldl_min_le_mem qs p q.oi h

lemma getLastD_mem (l : List SamplePoint) (d : SamplePoint) (h : l ≠ []) :
    l.getLastD d ∈ l := by
  induction l generalizing d with
  | nil => exact absurd rfl h
  | cons a as ih =>
    rw [List.getLastD_cons]
    cases as with
    | nil => exact List.mem_singleton.mpr rfl
    | cons b bs => exact List.mem_cons_of_mem a (ih a (by simp))

lemma getLast?_eq_some_getLastD (l : List SamplePoint) (d : SamplePoint) (h : l ≠ []) :
    l.getLast? = some (l.getLastD d) := by
  cases l with
  | nil => exact absurd rfl h
  | cons a as => simp [List.getLastD_eq_getLast?, List.getLast?_cons]

/-! ### Characterization of `computeEntry` -/

/-- Full case analysis of the ranking-loop body: an emitted entry records the
symbol, the `oi_growth_usd` formula, and exactly one of the four
market-cap/intensity branches of the priority chain. -/
lemma computeEntry_cases (sym : String) (df : List SamplePoint)
    (ti : Option SupplyRecord) (e : RankingEntry)
    (h : computeEntry sym df ti = some e) :
    2 ≤ df.length ∧ e.symbol = sym ∧
    e.oi_growth_usd = ((df.getLastD dfltPoint).oi - minOi df) * (df.getLastD dfltPoint).price ∧
    ((0 < safeSupply ti ∧
        e.market_cap = safeSupply ti * (df.getLastD dfltPoint).price ∧
        e.intensity = e.oi_growth_usd / e.market_cap) ∨
     (¬ 0 < safeSupply ti ∧ 0 < safeDbMarketCap ti ∧
        e.market_cap = safeDbMarketCap ti ∧
        e.intensity = e.oi_growth_usd / e.market_cap) ∨
     (¬ 0 < safeSupply ti ∧ ¬ 0 < safeDbMarketCap ti ∧ e.market_cap = 0 ∧
        ((0 < minOi df ∧
            e.intensity =
              ((df.getLastD dfltPoint).oi - minOi df) / minOi df * (1 / 10)) ∨
         (¬ 0 < minOi df ∧ e.intensity = 0)))) := by
  simp only [computeEntry] at h
  split at h
  · exact absurd h (by simp)
  · next hlen =>
    refine ⟨by omega, ?_⟩
    split at h
    · next hs =>
      obtain rfl := Option.some.inj h
      exact ⟨rfl, rfl, Or.inl ⟨hs, rfl, rfl⟩⟩
    · next hs =>
      split at h
      · next hm =>
        obtain rfl := Option.some.inj h
        exact ⟨rfl, rfl, Or.inr (Or.inl ⟨hs, hm, rfl, rfl⟩)⟩
      · next hm =>
        split at h
        · next ho =>
          obtain rfl := Option.some.inj h
          exact ⟨rfl, rfl, Or.inr (Or.inr ⟨hs, hm, rfl, Or.inl ⟨ho, rfl⟩⟩)⟩
        · next ho =>
          obtain rfl := Option.some.inj h
          exact ⟨rfl, rfl, Or.inr (Or.inr ⟨hs, hm, rfl, Or.inr ⟨ho, rfl⟩⟩)⟩

/-! ### Claims about the ranking computation -/

/-- C1: for every emitted entry, a positive `circulating_supply` on record
forces the dynamic path — `market_cap = circulating_supply * current_price`
and `intensity = oi_growth_usd / market_cap` — even when a positive static
`market_cap` is also present; a positive static `market_cap` is used directly
only when the supply is absent or non-positive; when neither applies the
entry's `market_cap` field is `0`. -/
theorem market_cap_priority_dynamic_first (sym : String) (df : List SamplePoint)
    (ti : Option SupplyRecord) (e : RankingEntry)
    (h : computeEntry sym df ti = some e) :
    (0 < safeSupply ti →
      e.market_cap = safeSupply ti * (df.getLastD dfltPoint).price ∧
      e.intensity = e.oi_growth_usd / e.market_cap) ∧
    (safeSupply ti ≤ 0 → 0 < safeDbMarketCap ti →
      e.market_cap = safeDbMarketCap ti ∧
      e.intensity = e.oi_growth_usd / e.market_cap) ∧
    (safeSupply ti ≤ 0 → safeDbMarketCap ti ≤ 0 → e.market_cap = 0) := by
  obtain ⟨-, -, -, hbr⟩ := computeEntry_cases sym df ti e h
  rcases hbr with ⟨hs, hmc, hint⟩ | ⟨hs, hdb, hmc, hint⟩ | ⟨hs, hdb, hmc, -⟩
  · exact ⟨fun _ => ⟨hmc, hint⟩, fun hle _ => absurd hs (not_lt.mpr hle),
      fun hle _ => absurd hs (not_lt.mpr hle)⟩
  · exact ⟨fun hpos => absurd hpos hs, fun _ _ => ⟨hmc, hint⟩,
      fun _ hle => absurd hdb (not_lt.mpr hle)⟩
  · exact ⟨fun hpos => absurd hpos hs, fun _ hpos => absurd hpos hdb,
      fun _ _ => hmc⟩

theorem market_cap_priority_dynamic_first_witness :
    computeEntry "BTC" [⟨1, 10, 100⟩, ⟨2, 12, 150⟩]
        (some ⟨RawField.num 1000, RawField.num 5⟩) =
      some ⟨"BTC", 1/20, 600, 12000⟩ ∧
    (0:ℚ) < safeSupply (some ⟨RawField.num 1000, RawField.num 5⟩) ∧
    (0:ℚ) < safeDbMarketCap (some ⟨RawField.num 1000, RawField.num 5⟩) ∧
    ((12000:ℚ) = safeSupply (some ⟨RawField.num 1000, RawField.num 5⟩) * 12 ∧
      (1/20:ℚ) = (600:ℚ) / 12000) := by
  have hc : computeEntry "BTC" [⟨1, 10, 100⟩, ⟨2, 12, 150⟩]
      (some ⟨RawField.num 1000, RawField.num 5⟩) =
      some ⟨"BTC", 1/20, 600, 12000⟩ := by
    norm_num [computeEntry, minOi, safeSupply, safeDbMarketCap, parseFloatOrZero,
      List.getLastD_cons, min_def]
  exact ⟨hc, by decide, by decide,
    (market_cap_priority_dynamic_first "BTC" _ _ _ hc).1 (by decide)⟩

/-- C2: for an emitted entry with no usable market cap (supply and static
market cap both non-positive), intensity is exactly
`((current_oi - min_oi) / min_oi) * 0.1` when `min_oi > 0`, and `0` when
`min_oi = 0`. -/
theorem intensity_oi_proxy (sym : String) (df : List SamplePoint)
    (ti : Option SupplyRecord) (e : RankingEntry)
    (h : computeEntry sym df ti = some e)
    (hs : safeSupply ti ≤ 0) (hm : safeDbMarketCap ti ≤ 0) :
    (0 < minOi df →
      e.intensity = ((df.getLastD dfltPoint).oi - minOi df) / minOi df * (1 / 10)) ∧
    (minOi df = 0 → e.intensity = 0) := by
  obtain ⟨-, -, -, hbr⟩ := computeEntry_cases sym df ti e h
  rcases hbr with ⟨hsp, -, -⟩ | ⟨-, hdb, -, -⟩ | ⟨-, -, -, hint⟩
  · exact absurd hsp (not_lt.mpr hs)
  · exact absurd hdb (not_lt.mpr hm)
  · rcases hint with ⟨ho, hi⟩ | ⟨ho, hi⟩
    · exact ⟨fun _ => hi, fun hz => absurd hz (ne_of_gt ho)⟩
    · exact ⟨fun hpos => absurd hpos ho, fun _ => hi⟩

theorem intensity_oi_proxy_witness :
    computeEntry "ABC" [⟨1, 10, 100⟩, ⟨2, 12, 150⟩] none =
      some ⟨"ABC", 1/20, 600, 0⟩ ∧
    safeSupply none ≤ 0 ∧ safeDbMarketCap none ≤ 0 ∧
    (0:ℚ) < minOi [⟨1, 10, 100⟩, ⟨2, 12, 150⟩] ∧
    (1/20:ℚ) = (((([⟨1, 10, 100⟩, ⟨2, 12, 150⟩] : List SamplePoint).getLastD
        dfltPoint).oi - minOi [⟨1, 10, 100⟩, ⟨2, 12, 150⟩]) /
      minOi [⟨1, 10, 100⟩, ⟨2, 12, 150⟩] * (1 / 10)) := by
  have hc : computeEntry "ABC" [⟨1, 10, 100⟩, ⟨2, 12, 150⟩] none =
      some ⟨"ABC", 1/20, 600, 0⟩ := by
    norm_num [computeEntry, minOi, safeSupply, safeDbMarketCap, parseFloatOrZero,
      List.getLastD_cons, min_def]
  exact ⟨hc, by decide, by decide, by decide,
    (intensity_oi_proxy "ABC" _ _ _ hc (by decide) (by decide)).1 (by decide)⟩

/-- C5: every emitted entry's `oi_growth_usd` equals
`(current_oi - min_oi) * current_price`, and under the data-model invariant
(positive prices, non-negative open interest on every sample) this value is
non-negative, because `min_oi` is a minimum taken over a series that contains
the last sample. -/
theorem oi_growth_formula_nonneg (sym : String) (df : List SamplePoint)
    (ti : Option SupplyRecord) (e : RankingEntry)
    (h : computeEntry sym df ti = some e)
    (hp : ∀ p ∈ df, 0 < p.price) (ho : ∀ p ∈ df, 0 ≤ p.oi) :
    e.oi_growth_usd =
      ((df.getLastD dfltPoint).oi - minOi df) * (df.getLastD dfltPoint).price ∧
    0 ≤ e.oi_growth_usd := by
  obtain ⟨hlen, -, hg, -⟩ := computeEntry_cases sym df ti e h
  have hne : df ≠ [] := by
    intro hnil
    rw [hnil] at hlen
    simp at hlen
  have hmem : df.getLastD dfltPoint ∈ df := getLastD_mem df dfltPoint hne
  have hmin : minOi df ≤ (df.getLastD dfltPoint).oi := minOi_le_of_mem df _ hmem
  refine ⟨hg, ?_⟩
  rw [hg]
  exact mul_nonneg (sub_nonneg.mpr hmin) (le_of_lt (hp _ hmem))

theorem oi_growth_formula_nonneg_witness :
    computeEntry "ABC" [⟨1, 10, 100⟩, ⟨2, 12, 150⟩] none =
      some ⟨"ABC", 1/20, 600, 0⟩ ∧
    (600:ℚ) = ((([⟨1, 10, 100⟩, ⟨2, 12, 150⟩] : List SamplePoint).getLastD
        dfltPoint).oi - minOi [⟨1, 10, 100⟩, ⟨2, 12, 150⟩]) *
      (([⟨1, 10, 100⟩, ⟨2, 12, 150⟩] : List SamplePoint).getLastD dfltPoint).price ∧
    (0:ℚ) ≤ 600 := by
  have hc : computeEntry "ABC" [⟨1, 10, 100⟩, ⟨2, 12, 150⟩] none =
      some ⟨"ABC", 1/20, 600, 0⟩ := by
    norm_num [computeEntry, minOi, safeSupply, safeDbMarketCap, parseFloatOrZero,
      List.getLastD_cons, min_def]
  have h := oi_growth_formula_nonneg "ABC" _ _ _ hc (by decide) (by decide)
  exact ⟨hc, h.1, h.2⟩

/-- C7: a supply-table field that is unparseable by `float(...)` behaves
exactly like an absent field: the emitted entry is unchanged and the
priority chain falls through to the next rule, with no exception path
(the embedding is total). -/
theorem unparseable_field_treated_as_absent (sym : String) (df : List SamplePoint)
    (r : SupplyRecord) :
    computeEntry sym df (some ⟨RawField.unparseable, r.market_cap⟩) =
      computeEntry sym df (some ⟨RawField.absent, r.market_cap⟩) ∧
    computeEntry sym df (some ⟨r.circulating_supply, RawField.unparseable⟩) =
      computeEntry sym df (some ⟨r.circulating_supply, RawField.absent⟩) :=
  ⟨rfl, rfl⟩

lemma computeEntry_isSome (sym : String) (df : List SamplePoint)
    (ti : Option SupplyRecord) :
    (computeEntry sym df ti).isSome = decide (2 ≤ df.length) := by
  simp only [computeEntry]
  by_cases hl : df.length < 2
  · rw [if_pos hl]
    have h2 : ¬ 2 ≤ df.length := by omega
    simp [h2]
  · rw [if_neg hl]
    have h2 : 2 ≤ df.length := by omega
    split
    · simp [h2]
    · split
      · simp [h2]
      · split <;> simp [h2]

/-- C6: a symbol's series yields an entry exactly when it has at least 2
sample points, and the ranking list has exactly one entry per eligible
symbol: its length is the number of symbols whose series has ≥ 2 points. -/
theorem rankings_one_entry_per_eligible_symbol (sym : String) (df : List SamplePoint)
    (ti : Option SupplyRecord) (bulk : List (String × List SamplePoint))
    (sd : String → Option SupplyRecord) :
    ((computeEntry sym df ti).isSome = true ↔ 2 ≤ df.length) ∧
    (computeRankings bulk sd).length =
      bulk.countP (fun p => decide (2 ≤ p.2.length)) := by
  constructor
  · rw [computeEntry_isSome]
    simp
  · induction bulk with
    | nil => rfl
    | cons p l ih =>
      simp only [computeRankings, List.filterMap_cons, List.countP_cons] at *
      cases hc : computeEntry p.1 p.2 (sd p.1) with
      | none =>
        have hs := computeEntry_isSome p.1 p.2 (sd p.1)
        rw [hc] at hs
        simp only [Option.isSome_none] at hs
        rw [← hs]
        simpa using ih
      | some e =>
        have hs := computeEntry_isSome p.1 p.2 (sd p.1)
        rw [hc] at hs
        simp only [Option.isSome_some] at hs
        rw [← hs]
        simpa using ih

/-! ### Helper lemmas about `everyNthAux` -/

lemma sub_mod_self_eq (n step : ℕ) (h : step ≤ n) : (n - step) % step = n % step := by
  conv_rhs => rw [← Nat.sub_add_cancel h]
  rw [Nat.add_mod_right]

lemma getLast?_cons_of_ne (a : SamplePoint) (l : List SamplePoint) (h : l ≠ []) :
    (a :: l).getLast? = l.getLast? := by
  cases l with
  | nil => exact absurd rfl h
  | cons b bs => rw [List.getLast?_cons_cons]

lemma getLastD_eq_getLast (l : List SamplePoint) (h : l ≠ []) (d : SamplePoint) :
    l.getLastD d = l.getLast h := by
  simp [List.getLastD_eq_getLast?, List.getLast?_eq_getLast l h]

lemma everyNthAux_sublist (step : ℕ) :
    ∀ (l : List SamplePoint) (k : ℕ), List.Sublist (everyNthAux step l k) l := by
  intro l
  induction l with
  | nil => intro k; exact List.Sublist.refl []
  | cons a l ih =>
    intro k
    cases k with
    | zero => exact List.Sublist.cons₂ a (ih (step - 1))
    | succ k => exact List.Sublist.cons a (ih k)

lemma everyNthAux_nil_of_le (step : ℕ) :
    ∀ (l : List SamplePoint) (k : ℕ), l.length ≤ k → everyNthAux step l k = [] := by
  intro l
  induction l with
  | nil => intro k _; rfl
  | cons a l ih =>
    intro k hk
    cases k with
    | zero => simp at hk
    | succ k =>
      show everyNthAux step l k = []
      exact ih k (by simp at hk; omega)

lemma everyNthAux_length (step : ℕ) (hstep : 1 ≤ step) :
    ∀ (l : List SamplePoint) (k : ℕ),
      (everyNthAux step l k).length = (l.length - k + step - 1) / step := by
  intro l
  induction l with
  | nil =>
    intro k
    show (0:ℕ) = (0 - k + step - 1) / step
    rw [Nat.zero_sub, Nat.div_eq_of_lt (by omega)]
  | cons a l ih =>
    intro k
    cases k with
    | zero =>
      show (a :: everyNthAux step l (step - 1)).length = ((a :: l).length - 0 + step - 1) / step
      simp only [List.length_cons]
      rw [ih (step - 1)]
      have hr : l.length + 1 - 0 + step - 1 = l.length + step := by omega
      rw [hr, Nat.add_div_right _ (by omega)]
      congr 1
      by_cases hc : step - 1 ≤ l.length
      · congr 1
        omega
      · push_neg at hc
        rw [Nat.div_eq_of_lt (by omega), Nat.div_eq_of_lt (by omega)]
    | succ k =>
      show (everyNthAux step l k).length = ((a :: l).length - (k + 1) + step - 1) / step
      rw [ih k]
      congr 1
      simp only [List.length_cons]
      omega

lemma everyNthAux_getLast?_keep (step : ℕ) (hstep : 1 ≤ step) :
    ∀ (l : List SamplePoint) (k : ℕ), k < l.length → (l.length - 1 - k) % step = 0 →
      (everyNthAux step l k).getLast? = l.getLast? := by
  intro l
  induction l with
  | nil => intro k hk _; simp at hk
  | cons a l ih =>
    intro k hk hmod
    cases k with
    | zero =>
      by_cases hl : l = []
      · subst hl; rfl
      · have hn : 1 ≤ l.length := List.length_pos.mpr hl
        have hmod' : l.length % step = 0 := by simpa using hmod
        have hsle : step ≤ l.length := by
          by_contra hlt
          push_neg at hlt
          have := Nat.mod_eq_of_lt hlt
          omega
        have hmod'' : (l.length - 1 - (step - 1)) % step = 0 := by
          have heq : l.length - 1 - (step - 1) = l.length - step := by omega
          rw [heq, sub_mod_self_eq _ _ hsle, hmod']
        have htail := ih (step - 1) (by omega) hmod''
        have hne : everyNthAux step l (step - 1) ≠ [] := by
          apply List.length_pos.mp
          rw [everyNthAux_length step hstep l (step - 1)]
          have : l.length - (step - 1) + step - 1 = l.length := by omega
          rw [this]
          exact (Nat.one_le_div_iff (by omega)).mpr hsle
        show (a :: everyNthAux step l (step - 1)).getLast? = (a :: l).getLast?
        rw [getLast?_cons_of_ne _ _ hne, getLast?_cons_of_ne _ _ hl, htail]
    | succ k =>
      have hk' : k < l.length := by simp at hk; omega
      have hl : l ≠ [] := by
        intro hnil
        rw [hnil] at hk'
        simp at hk'
      have hmod' : (l.length - 1 - k) % step = 0 := by
        have heq : (a :: l).length - 1 - (k + 1) = l.length - 1 - k := by
          simp only [List.length_cons]
          omega
        rwa [heq] at hmod
      show (everyNthAux step l k).getLast? = (a :: l).getLast?
      rw [getLast?_cons_of_ne _ _ hl]
      exact ih k hk' hmod'

lemma everyNthAux_dropLast (step : ℕ) (hstep : 1 ≤ step) :
    ∀ (l : List SamplePoint) (k : ℕ), k < l.length → (l.length - 1 - k) % step ≠ 0 →
      everyNthAux step l k = everyNthAux step l.dropLast k := by
  intro l
  induction l with
  | nil => intro k hk _; simp at hk
  | cons a l ih =>
    intro k hk hmod
    by_cases hl : l = []
    · subst hl
      have hk0 : k = 0 := by simp at hk; omega
      subst hk0
      exact absurd (by simp) hmod
    · have hlne : 1 ≤ l.length := List.length_pos.mpr hl
      have hdrop : (a :: l).dropLast = a :: l.dropLast := by
        cases l with
        | nil => exact absurd rfl hl
        | cons b bs => rfl
      cases k with
      | zero =>
        rw [hdrop]
        show a :: everyNthAux step l (step - 1) = a :: everyNthAux step l.dropLast (step - 1)
        congr 1
        by_cases hcase : l.length ≤ step - 1
        · rw [everyNthAux_nil_of_le _ _ _ hcase, everyNthAux_nil_of_le]
          rw [List.length_dropLast]
          omega
        · push_neg at hcase
          have hsle : step ≤ l.length := by omega
          have hmod' : (l.length - 1 - (step - 1)) % step ≠ 0 := by
            have heq : l.length - 1 - (step - 1) = l.length - step := by omega
            rw [heq, sub_mod_self_eq _ _ hsle]
            simpa using hmod
          exact ih (step - 1) (by omega) hmod'
      | succ k =>
        rw [hdrop]
        show everyNthAux step l k = everyNthAux step l.dropLast k
        have hk' : k < l.length := by simp at hk; omega
        have hmod' : (l.length - 1 - k) % step ≠ 0 := by
          have heq : (a :: l).length - 1 - (k + 1) = l.length - 1 - k := by
            simp only [List.length_cons]
            omega
          rwa [heq] at hmod
        exact ih k hk' hmod'

lemma everyNth_one : ∀ l : List SamplePoint, everyNth l 1 = l := by
  intro l
  induction l with
  | nil => rfl
  | cons a l ih =>
    show a :: everyNthAux 1 l 0 = a :: l
    exact congrArg (a :: ·) ih

/-! ### Claims about the downsampler -/

/-- C3: `downsample_data` returns the series unchanged whenever
`len(series) ≤ 1.5 * targetPoints` (stated integrally as
`2 * len ≤ 3 * targetPoints`): below `targetPoints` the code returns the
input directly, and in the band `targetPoints < len ≤ 1.5 * targetPoints`
the stride `len // targetPoints` is `1`, so the selected subsequence is the
whole series. -/
theorem downsample_noop_below_threshold (df : List SamplePoint) (target_points : ℕ)
    (h : 2 * df.length ≤ 3 * target_points) :
    downsample_data df target_points = df := by
  simp only [downsample_data]
  by_cases hle : df.length ≤ target_points
  · rw [if_pos hle]
  · rw [if_neg hle]
    push_neg at hle
    have ht : 1 ≤ target_points := by omega
    have hstep : df.length / target_points = 1 := by
      have h1 : 1 ≤ df.length / target_points :=
        (Nat.one_le_div_iff (by omega)).mpr (by omega)
      have h2 : df.length / target_points < 2 := by
        rw [Nat.div_lt_iff_lt_mul (by omega)]
        omega
      omega
    rw [hstep, if_pos (Nat.mod_one _), everyNth_one]

theorem downsample_noop_below_threshold_witness :
    2 * ([⟨1, 10, 100⟩, ⟨2, 11, 120⟩, ⟨3, 12, 150⟩] : List SamplePoint).length ≤ 3 * 2 ∧
    downsample_data [⟨1, 10, 100⟩, ⟨2, 11, 120⟩, ⟨3, 12, 150⟩] 2 =
      [⟨1, 10, 100⟩, ⟨2, 11, 120⟩, ⟨3, 12, 150⟩] :=
  ⟨by decide, downsample_noop_below_threshold _ 2 (by decide)⟩

/-- C4: for a non-empty series and `targetPoints ≥ 1`, the output of
`downsample_data` is a subsequence of the input (original order, rows
unmodified) and its last element equals the input's last element. -/
theorem downsample_subsequence_keeps_last (df : List SamplePoint) (target_points : ℕ)
    (hne : df ≠ []) (ht : 1 ≤ target_points) :
    List.Sublist (downsample_data df target_points) df ∧
    (downsample_data df target_points).getLast? = df.getLast? := by
  have hlen : 1 ≤ df.length := List.length_pos.mpr hne
  simp only [downsample_data]
  by_cases hle : df.length ≤ target_points
  · rw [if_pos hle]
    exact ⟨List.Sublist.refl df, rfl⟩
  · rw [if_neg hle]
    push_neg at hle
    have hstep : 1 ≤ df.length / target_points :=
      (Nat.one_le_div_iff (by omega)).mpr (by omega)
    set step := df.length / target_points with hstepdef
    by_cases hmod : (df.length - 1) % step = 0
    · rw [if_pos hmod]
      exact ⟨everyNthAux_sublist step df 0,
        everyNthAux_getLast?_keep step hstep df 0 (by omega) (by simpa using hmod)⟩
    · rw [if_neg hmod]
      have heq : everyNthAux step df 0 = everyNthAux step df.dropLast 0 :=
        everyNthAux_dropLast step hstep df 0 (by omega) (by simpa using hmod)
      constructor
      · have happ : List.Sublist (everyNth df step ++ [df.getLastD dfltPoint])
            (df.dropLast ++ [df.getLastD dfltPoint]) := by
          rw [show everyNth df step = everyNthAux step df.dropLast 0 from heq]
          exact List.Sublist.append (everyNthAux_sublist step df.dropLast 0)
            (List.Sublist.refl _)
        have hrecon : df.dropLast ++ [df.getLastD dfltPoint] = df := by
          rw [getLastD_eq_getLast df hne dfltPoint]
          exact List.dropLast_append_getLast hne
        rwa [hrecon] at happ
      · rw [List.getLast?_concat]
        exact (getLast?_eq_some_getLastD df dfltPoint hne).symm

theorem downsample_subsequence_keeps_last_witness :
    ([⟨1, 10, 100⟩, ⟨2, 11, 120⟩, ⟨3, 12, 150⟩, ⟨4, 13, 170⟩, ⟨5, 14, 190⟩] :
        List SamplePoint) ≠ [] ∧ 1 ≤ 2 ∧
    (List.Sublist
        (downsample_data
          [⟨1, 10, 100⟩, ⟨2, 11, 120⟩, ⟨3, 12, 150⟩, ⟨4, 13, 170⟩, ⟨5, 14, 190⟩] 2)
        [⟨1, 10, 100⟩, ⟨2, 11, 120⟩, ⟨3, 12, 150⟩, ⟨4, 13, 170⟩, ⟨5, 14, 190⟩] ∧
      (downsample_data
          [⟨1, 10, 100⟩, ⟨2, 11, 120⟩, ⟨3, 12, 150⟩, ⟨4, 13, 170⟩, ⟨5, 14, 190⟩]
          2).getLast? =
        ([⟨1, 10, 100⟩, ⟨2, 11, 120⟩, ⟨3, 12, 150⟩, ⟨4, 13, 170⟩, ⟨5, 14, 190⟩] :
          List SamplePoint).getLast?) :=
  ⟨by decide, by decide,
    downsample_subsequence_keeps_last _ 2 (by decide) (by decide)⟩

/-- C10: for a non-empty series and `targetPoints ≥ 1`, the output of
`downsample_data` never exceeds `2 * targetPoints` points: the stride
selection keeps `(len-1)/stride + 1` rows and the optional appended last row
adds at most one more. -/
theorem downsample_output_bounded (df : List SamplePoint) (target_points : ℕ)
    (hne : df ≠ []) (ht : 1 ≤ target_points) :
    (downsample_data df target_points).length ≤ 2 * target_points := by
  have hlen : 1 ≤ df.length := List.length_pos.mpr hne
  simp only [downsample_data]
  by_cases hle : df.length ≤ target_points
  · rw [if_pos hle]
    omega
  · rw [if_neg hle]
    push_neg at hle
    set step := df.length / target_points with hstepdef
    have hstep : 1 ≤ step := (Nat.one_le_div_iff (by omega)).mpr (by omega)
    have hsamp : (everyNth df step).length = (df.length - 1) / step + 1 := by
      rw [everyNth, everyNthAux_length step hstep df 0]
      have hnum : df.length - 0 + step - 1 = (df.length - 1) + step := by omega
      rw [hnum, Nat.add_div_right _ (by omega)]
    have hbound : (df.length - 1) / step + 2 ≤ 2 * target_points := by
      have hq : (df.length - 1) / step < 2 * target_points - 1 := by
        rw [Nat.div_lt_iff_lt_mul (by omega)]
        obtain ⟨t, rfl⟩ : ∃ t, target_points = t + 1 := ⟨target_points - 1, by omega⟩
        have hmoddm := Nat.div_add_mod df.length (t + 1)
        rw [← hstepdef] at hmoddm
        have hrlt : df.length % (t + 1) < t + 1 := Nat.mod_lt _ (by omega)
        have hexp : (t + 1) * step = t * step + step := Nat.succ_mul t step
        rw [hexp] at hmoddm
        have hexp2 : (2 * (t + 1) - 1) * step = 2 * (t * step) + step := by
          have h21 : 2 * (t + 1) - 1 = 2 * t + 1 := by omega
          rw [h21, Nat.succ_mul, Nat.mul_assoc]
        rw [hexp2]
        have htle : t ≤ t * step := Nat.le_mul_of_pos_right t (by omega)
        generalize t * step = A at hmoddm htle ⊢
        omega
      omega
    by_cases hmod : (df.length - 1) % step = 0
    · rw [if_pos hmod, hsamp]
      omega
    · rw [if_neg hmod, List.length_append, hsamp]
      simp only [List.length_singleton]
      omega

theorem downsample_output_bounded_witness :
    ([⟨1, 10, 100⟩, ⟨2, 11, 120⟩, ⟨3, 12, 150⟩, ⟨4, 13, 170⟩, ⟨5, 14, 190⟩] :
        List SamplePoint) ≠ [] ∧ 1 ≤ 2 ∧
    (downsample_data
        [⟨1, 10, 100⟩, ⟨2, 11, 120⟩, ⟨3, 12, 150⟩, ⟨4, 13, 170⟩, ⟨5, 14, 190⟩]
        2).length ≤ 2 * 2 :=
  ⟨by decide, by decide, downsample_output_bounded _ 2 (by decide) (by decide)⟩

/-! ### Claims about the bulk fetch window -/

/-- C8 (counterexample): the bulk fetch of `fetch_bulk_data_one_shot` returns
every point of the most-recent window — on a 3-row series the result is the
whole series — which differs from the stride-decimated subset the claim
describes (here at stride 2). -/
theorem fetch_window_no_decimation_cex :
    fetch_bulk_window [⟨1, 10, 100⟩, ⟨2, 11, 120⟩, ⟨3, 12, 150⟩] DATA_LIMIT =
      [⟨1, 10, 100⟩, ⟨2, 11, 120⟩, ⟨3, 12, 150⟩] ∧
    specDecimatedFetch [⟨1, 10, 100⟩, ⟨2, 11, 120⟩, ⟨3, 12, 150⟩] DATA_LIMIT 2 ≠
      fetch_bulk_window [⟨1, 10, 100⟩, ⟨2, 11, 120⟩, ⟨3, 12, 150⟩] DATA_LIMIT := by
  constructor
  · decide
  · decide

/-- C8 (amended): per requested symbol, the bulk fetch returns the at most
`DATA_LIMIT` most-recent rows of the series — a suffix of the time-ascending
series, of length `min DATA_LIMIT len`, equal to the whole series when it
fits — re-ordered ascending by time, with no stride decimation. -/
theorem fetch_window_is_recent_suffix (rows : List SamplePoint) (limit : ℕ) :
    (fetch_bulk_window rows limit).length = min limit rows.length ∧
    List.IsSuffix (fetch_bulk_window rows limit) rows ∧
    (rows.length ≤ limit → fetch_bulk_window rows limit = rows) := by
  refine ⟨?_, ?_, ?_⟩
  · simp [fetch_bulk_window]
  · show List.IsSuffix ((List.take limit rows.reverse).reverse) rows
    apply List.reverse_prefix.mp
    rw [List.reverse_reverse]
    exact List.take_prefix _ _
  · intro hle
    show (List.take limit rows.reverse).reverse = rows
    rw [List.take_of_length_le (by simpa using hle), List.reverse_reverse]

theorem fetch_window_is_recent_suffix_witness :
    (fetch_bulk_window [⟨1, 10, 100⟩, ⟨2, 11, 120⟩, ⟨3, 12, 150⟩] DATA_LIMIT).length =
      min DATA_LIMIT 3 ∧
    ([⟨1, 10, 100⟩, ⟨2, 11, 120⟩, ⟨3, 12, 150⟩] : List SamplePoint).length ≤ DATA_LIMIT ∧
    fetch_bulk_window [⟨1, 10, 100⟩, ⟨2, 11, 120⟩, ⟨3, 12, 150⟩] DATA_LIMIT =
      [⟨1, 10, 100⟩, ⟨2, 11, 120⟩, ⟨3, 12, 150⟩] :=
  ⟨(fetch_window_is_recent_suffix _ DATA_LIMIT).1, by decide,
    (fetch_window_is_recent_suffix _ DATA_LIMIT).2.2 (by decide)⟩
